import Mathlib

/-!
Verification development for the `sanitize` repository: a Windows-compatible
folder-name sanitizer together with a bottom-up directory-tree rename engine.

The definitions below are a shallow embedding of the Go source:

* `internal/sanitizer` (`WindowsSanitizer.SanitizeName` and its helpers),
* `internal/walker` (`processWalkPath`, `calculateDepth`, `sortFoldersByDepth`),
* `internal/processor` (`ProcessRename`, `resolveNameCollision`, `performRename`),
* `internal/service` (`SanitizeDirectory`, counting and overall-failure logic).

Go strings are modelled as `List Char` (a Go string is a byte sequence that the
sanitizer immediately decodes into runes; every rune becomes a `Char`), with a
`String` wrapper for the public entry points.  Machine integers are modelled as
`Nat`: every counter and depth in the source is non-negative at every use site.
Filesystem state is passed explicitly: an existence predicate `String → Bool`
stands for `os.Stat` succeeding, and a `String → String → Option String`
outcome function stands for `os.Rename` (`none` = success, `some e` = the error
text).  Filesystem side effects are reified as an explicit `FSOp` trace so that
"does not touch the filesystem" is a provable statement.
-/

/-! ### Sanitizer: data tables (from `internal/sanitizer/sanitizer.go`) -/

/-- Characters that are not allowed in Windows folder names
(`WindowsSanitizer.invalidChars`). -/
def invalidChars : List Char := ['<', '>', ':', '"', '|', '?', '*', '\\', '/']

/-- Case-insensitive reserved names in Windows (`WindowsSanitizer.reservedNames`,
a Go `map[string]bool`; modelled as the list of its keys). -/
def reservedNames : List (List Char) :=
  ["CON".data, "PRN".data, "AUX".data, "NUL".data,
   "COM1".data, "COM2".data, "COM3".data, "COM4".data, "COM5".data,
   "COM6".data, "COM7".data, "COM8".data, "COM9".data,
   "LPT1".data, "LPT2".data, "LPT3".data, "LPT4".data, "LPT5".data,
   "LPT6".data, "LPT7".data, "LPT8".data, "LPT9".data]

/-- Maximum allowed folder name length (`WindowsSanitizer.maxNameLength`). -/
def maxNameLength : Nat := 255

/-- Placeholder returned whenever sanitization would otherwise yield nothing. -/
def emptyPlaceholder : List Char := "_empty_".data

/-- Membership test used for the invalid-character set
(`WindowsSanitizer.containsRune`). -/
def containsRune (slice : List Char) (r : Char) : Bool :=
  slice.contains r

/-! ### Go standard-library character classes

The Go source consults `unicode.IsLetter`, `IsUpper`, `IsDigit`, `IsSpace` and
`IsPunct` (only ever for runes above 127 that fall outside the Latin-1 /
Latin-Extended-A fast paths) and `strings.ToUpper`/`TrimSpace`.  The exact
Unicode tables are Go-runtime data external to this repository; they are
modelled below by the standard ranges the repository's tests exercise.  No
claim in this development depends on the exact extension of these predicates:
the proofs only use the shape of the values the sanitizer produces from them
(`'A'`, `'a'`, `'0'`, `' '`, `'_'`). -/

/-- Models `unicode.IsSpace`: Unicode White_Space code points.  This is the
full White_Space set, so it is exact. -/
def goIsSpace (c : Char) : Bool :=
  let n := c.toNat
  (9 ≤ n && n ≤ 13) || n = 32 || n = 0x85 || n = 0xA0 || n = 0x1680 ||
  (0x2000 ≤ n && n ≤ 0x200A) || n = 0x2028 || n = 0x2029 || n = 0x202F ||
  n = 0x205F || n = 0x3000

/-- Models `unicode.IsUpper` on the ranges reachable in this program
(ASCII, Latin-1 capitals, Greek capitals, Cyrillic capitals). -/
def goIsUpper (c : Char) : Bool :=
  let n := c.toNat
  (65 ≤ n && n ≤ 90) || (0xC0 ≤ n && n ≤ 0xDE && n ≠ 0xD7) ||
  (0x391 ≤ n && n ≤ 0x3A9 && n ≠ 0x3A2) || (0x400 ≤ n && n ≤ 0x42F)

/-- Models `unicode.IsLower` on the ranges reachable in this program. -/
def goIsLower (c : Char) : Bool :=
  let n := c.toNat
  (97 ≤ n && n ≤ 122) || (0xDF ≤ n && n ≤ 0xFF && n ≠ 0xF7) ||
  (0x3B1 ≤ n && n ≤ 0x3C9) || (0x430 ≤ n && n ≤ 0x44F)

/-- Models `unicode.IsLetter`: cased letters plus the uncased letter blocks the
tests exercise (CJK Unified Ideographs, Arabic letters). -/
def goIsLetter (c : Char) : Bool :=
  let n := c.toNat
  goIsUpper c || goIsLower c || (0x4E00 ≤ n && n ≤ 0x9FFF) ||
  (0x620 ≤ n && n ≤ 0x64A)

/-- Models `unicode.IsDigit`: decimal digit code points (ASCII plus the
Arabic-Indic block). -/
def goIsDigit (c : Char) : Bool :=
  let n := c.toNat
  (48 ≤ n && n ≤ 57) || (0x660 ≤ n && n ≤ 0x669)

/-- Models `unicode.IsPunct` on common blocks (ASCII punctuation, Latin-1
punctuation, general punctuation). -/
def goIsPunct (c : Char) : Bool :=
  let n := c.toNat
  (33 ≤ n && n ≤ 47) || (58 ≤ n && n ≤ 64) || (91 ≤ n && n ≤ 96) ||
  (123 ≤ n && n ≤ 126) || (0xA1 ≤ n && n ≤ 0xBF) || (0x2010 ≤ n && n ≤ 0x2027)

/-- Models `strings.ToUpper` on a single character.  By the time the sanitizer
calls `strings.ToUpper`, every character of its argument is ASCII (proved
below), for which the ASCII branch is exact. -/
def goToUpperChar (c : Char) : Char :=
  if 97 ≤ c.toNat && c.toNat ≤ 122 then Char.ofNat (c.toNat - 32) else c

/-- Models `strings.ToUpper` on a whole string. -/
def goToUpper (l : List Char) : List Char :=
  l.map goToUpperChar

/-! ### Trimming primitives (`strings.TrimSpace`, `strings.TrimRight`) -/

/-- Removes the longest suffix of characters satisfying `p` (the right-hand
half of Go's `strings.TrimRight` / `strings.TrimSpace`). -/
def dropWhileRight (p : Char → Bool) : List Char → List Char
  | [] => []
  | c :: cs =>
    let r := dropWhileRight p cs
    if r = [] && p c then [] else c :: r

/-- Models `strings.TrimSpace`: remove leading and trailing White_Space. -/
def trimSpace (l : List Char) : List Char :=
  dropWhileRight goIsSpace (l.dropWhile goIsSpace)

/-- Predicate for `strings.TrimRight(name, ". ")`. -/
def isDotOrSpace (c : Char) : Bool :=
  c = '.' || c = ' '

/-! ### UTF-8 byte length (Go `len` and byte slicing)

Go's `len` and `name[:k]` work on bytes.  `utf8Len` is the byte length of the
UTF-8 encoding; `takeBytes k` keeps the longest character prefix of byte length
at most `k`, which coincides with Go's byte slice whenever the cut falls on a
character boundary — in this program every character reaching the length check
is single-byte (proved below), so the two agree. -/

/-- Byte length of the UTF-8 encoding of the character list. -/
def utf8Len (l : List Char) : Nat :=
  (l.map Char.utf8Size).sum

/-- Longest character prefix of UTF-8 byte length at most `n`. -/
def takeBytes (n : Nat) : List Char → List Char
  | [] => []
  | c :: cs => if c.utf8Size ≤ n && n ≠ 0 then c :: takeBytes (n - c.utf8Size) cs else []

/-! ### Unicode-to-ASCII conversion (`unicodeLatinToASCII` and friends) -/

/-- The replacement table of `WindowsSanitizer.unicodeLatinToASCII`
(a Go `map[rune]rune`, modelled as an association list of its entries). -/
def latinReplacements : List (Char × Char) :=
  [('À', 'A'), ('Á', 'A'), ('Â', 'A'), ('Ã', 'A'), ('Ä', 'A'), ('Å', 'A'), ('Æ', 'A'),
   ('Ç', 'C'), ('È', 'E'), ('É', 'E'), ('Ê', 'E'), ('Ë', 'E'), ('Ì', 'I'), ('Í', 'I'),
   ('Î', 'I'), ('Ï', 'I'), ('Ð', 'D'), ('Ñ', 'N'), ('Ò', 'O'), ('Ó', 'O'), ('Ô', 'O'),
   ('Õ', 'O'), ('Ö', 'O'), ('Ø', 'O'), ('Ù', 'U'), ('Ú', 'U'), ('Û', 'U'), ('Ü', 'U'),
   ('Ý', 'Y'), ('Þ', 'T'), ('ß', 's'), ('à', 'a'), ('á', 'a'), ('â', 'a'), ('ã', 'a'),
   ('ä', 'a'), ('å', 'a'), ('æ', 'a'), ('ç', 'c'), ('è', 'e'), ('é', 'e'), ('ê', 'e'),
   ('ë', 'e'), ('ì', 'i'), ('í', 'i'), ('î', 'i'), ('ï', 'i'), ('ð', 'd'), ('ñ', 'n'),
   ('ò', 'o'), ('ó', 'o'), ('ô', 'o'), ('õ', 'o'), ('ö', 'o'), ('ø', 'o'), ('ù', 'u'),
   ('ú', 'u'), ('û', 'u'), ('ü', 'u'), ('ý', 'y'), ('þ', 't'), ('ÿ', 'y')]

/-- Models `WindowsSanitizer.unicodeLatinToASCII`: look the rune up in the
replacement table, returning the rune 0 when absent (Go returns `0`). -/
def unicodeLatinToASCII (r : Char) : Char :=
  (latinReplacements.lookup r).getD (Char.ofNat 0)

/-- Models `WindowsSanitizer.unicodeExtendedLatinToASCII` (Latin Extended-A). -/
def unicodeExtendedLatinToASCII (r : Char) : Char :=
  let n := r.toNat
  if 0x100 ≤ n && n ≤ 0x105 then (if n % 2 = 0 then 'A' else 'a')
  else if 0x106 ≤ n && n ≤ 0x10D then (if n % 2 = 0 then 'C' else 'c')
  else if 0x10E ≤ n && n ≤ 0x111 then (if n % 2 = 0 then 'D' else 'd')
  else if 0x112 ≤ n && n ≤ 0x11B then (if n % 2 = 0 then 'E' else 'e')
  else if goIsUpper r then 'A' else 'a'

/-- Models `WindowsSanitizer.unicodeToASCII`: layered conversion of a non-ASCII
rune to its closest ASCII equivalent, 0 when unclassifiable. -/
def unicodeToASCII (r : Char) : Char :=
  let n := r.toNat
  if 0xC0 ≤ n && n ≤ 0xDD then unicodeLatinToASCII r
  else if 0xE0 ≤ n && n ≤ 0xFF then unicodeLatinToASCII r
  else if 0x100 ≤ n && n ≤ 0x17F then unicodeExtendedLatinToASCII r
  else if goIsLetter r then (if goIsUpper r then 'A' else 'a')
  else if goIsDigit r then '0'
  else if goIsSpace r then ' '
  else if goIsPunct r then '_'
  else Char.ofNat 0

/-! ### The sanitizer pipeline (`WindowsSanitizer.SanitizeName`) -/

/-- Per-character step of `WindowsSanitizer.processCharacters`. -/
def processChar (r : Char) : Char :=
  if containsRune invalidChars r then '_'
  else if 127 < r.toNat then
    let ascii := unicodeToASCII r
    if ascii.toNat ≠ 0 then ascii else '_'
  else r

/-- Models `WindowsSanitizer.processCharacters`: character-by-character
processing for Unicode and invalid characters. -/
def processCharacters (name : List Char) : List Char :=
  name.map processChar

/-- Models the control-character removal
(`controlCharsRegex.ReplaceAllString(name, "")`, regex `[\x00-\x1F]`; in valid
UTF-8 those bytes occur exactly as the runes 0–31). -/
def removeControlChars (name : List Char) : List Char :=
  name.filter (fun c => !(c.toNat ≤ 31))

/-- Models `WindowsSanitizer.applyWindowsRules`: trimming, the reserved-name
check and the length limit, in source order. -/
def applyWindowsRules (name : List Char) : List Char :=
  let name1 := trimSpace name
  if name1 = [] then emptyPlaceholder
  else
    let name2 := dropWhileRight isDotOrSpace name1
    if name2 = [] then emptyPlaceholder
    else
      let name3 := if goToUpper name2 ∈ reservedNames then name2 ++ ['_'] else name2
      let name4 :=
        if maxNameLength < utf8Len name3 then
          takeBytes (maxNameLength - 3) name3 ++ ['.', '.', '.']
        else name3
      if trimSpace name4 = [] then emptyPlaceholder else name4

/-- Models `WindowsSanitizer.SanitizeName` on character lists. -/
def sanitizeName (name : List Char) : List Char :=
  if name = [] then emptyPlaceholder
  else applyWindowsRules (processCharacters (removeControlChars name))

/-- Models `WindowsSanitizer.SanitizeName` as a `String` transformer (the
public `Sanitize` operation of the spec). -/
def SanitizeName (s : String) : String :=
  ⟨sanitizeName s.data⟩

lemma SanitizeName_data (s : String) : (SanitizeName s).data = sanitizeName s.data :=
  rfl

lemma data_mk (l : List Char) : (String.mk l).data = l :=
  rfl

/-! ### Supporting lemmas: characters -/

/-- A character that survives the sanitizer pipeline: printable-range ASCII
(code 32–127) and not a forbidden character. -/
def goodChar (c : Char) : Prop :=
  32 ≤ c.toNat ∧ c.toNat ≤ 127 ∧ c ∉ invalidChars

instance (c : Char) : Decidable (goodChar c) := by
  unfold goodChar; infer_instance

lemma utf8Size_eq_one_of_le {c : Char} (h : c.toNat ≤ 127) : c.utf8Size = 1 := by
  unfold Char.utf8Size
  have hv : c.val ≤ 0x7F := h
  simp [hv]

lemma utf8Size_eq_one_of_goodChar {c : Char} (h : goodChar c) : c.utf8Size = 1 :=
  utf8Size_eq_one_of_le h.2.1

lemma char_eq_of_toNat {c d : Char} (h : c.toNat = d.toNat) : c = d :=
  Char.ext (UInt32.ext (by simpa [Char.toNat] using h))

lemma goodChar_eq_space_of_goIsSpace {c : Char} (h : goodChar c)
    (hs : goIsSpace c = true) : c = ' ' := by
  obtain ⟨h1, h2, -⟩ := h
  have hn : c.toNat = 32 := by
    simp only [goIsSpace, Bool.or_eq_true, Bool.and_eq_true, decide_eq_true_eq] at hs
    omega
  exact char_eq_of_toNat (by simpa using hn)

lemma lookup_mem_values {l : List (Char × Char)} {a b : Char}
    (h : l.lookup a = some b) : b ∈ l.map Prod.snd := by
  induction l with
  | nil => simp [List.lookup] at h
  | cons p t ih =>
    rw [List.lookup] at h
    by_cases hc : a == p.1
    · simp [hc] at h
      simp [← h]
    · simp [hc] at h
      simp [ih h]

lemma unicodeLatinToASCII_zero_or_good (r : Char) :
    (unicodeLatinToASCII r).toNat = 0 ∨ goodChar (unicodeLatinToASCII r) := by
  unfold unicodeLatinToASCII
  cases h : latinReplacements.lookup r with
  | none => left; rfl
  | some b =>
    right
    have hb := lookup_mem_values h
    have hall : ∀ x ∈ latinReplacements.map Prod.snd, goodChar x := by decide
    simpa using hall b hb

lemma unicodeExtendedLatinToASCII_good (r : Char) :
    goodChar (unicodeExtendedLatinToASCII r) := by
  unfold unicodeExtendedLatinToASCII
  simp only
  split
  · split <;> decide
  · split
    · split <;> decide
    · split
      · split <;> decide
      · split
        · split <;> decide
        · split <;> decide

lemma unicodeToASCII_zero_or_good (r : Char) :
    (unicodeToASCII r).toNat = 0 ∨ goodChar (unicodeToASCII r) := by
  unfold unicodeToASCII
  simp only
  split
  · exact unicodeLatinToASCII_zero_or_good r
  · split
    · exact unicodeLatinToASCII_zero_or_good r
    · split
      · exact Or.inr (unicodeExtendedLatinToASCII_good r)
      · split
        · split <;> exact Or.inr (by decide)
        · split
          · exact Or.inr (by decide)
          · split
            · exact Or.inr (by decide)
            · split
              · exact Or.inr (by decide)
              · exact Or.inl rfl

lemma not_mem_invalid_of_not_contains {c : Char}
    (h : ¬ containsRune invalidChars c = true) : c ∉ invalidChars := by
  simpa [containsRune, List.elem_iff] using h

lemma processChar_good {c : Char} (h : 32 ≤ c.toNat) : goodChar (processChar c) := by
  unfold processChar
  split
  · decide
  · next hinv =>
    split
    · next h127 =>
      simp only []
      split
      · next hz =>
        rcases unicodeToASCII_zero_or_good c with h0 | hg
        · exact absurd h0 hz
        · exact hg
      · decide
    · next h127 =>
      exact ⟨h, by omega, not_mem_invalid_of_not_contains hinv⟩

lemma processChar_id {c : Char} (h1 : c ∉ invalidChars) (h2 : c.toNat ≤ 127) :
    processChar c = c := by
  unfold processChar
  have hc : containsRune invalidChars c = false := by
    simp [containsRune, List.elem_iff, h1]
  simp [hc, Nat.not_lt.mpr h2]

lemma processed_good (l : List Char) :
    ∀ c ∈ processCharacters (removeControlChars l), goodChar c := by
  intro c hc
  simp only [processCharacters, List.mem_map] at hc
  obtain ⟨b, hb, rfl⟩ := hc
  simp only [removeControlChars, List.mem_filter, Bool.not_eq_true',
    decide_eq_false_iff_not, Nat.not_le] at hb
  exact processChar_good (by omega)

/-! ### Supporting lemmas: trimming -/

lemma mem_dropWhileRight {p : Char → Bool} {l : List Char} {a : Char}
    (h : a ∈ dropWhileRight p l) : a ∈ l := by
  induction l with
  | nil => simp [dropWhileRight] at h
  | cons c cs ih =>
    rw [dropWhileRight] at h
    split at h
    · simp at h
    · rcases List.mem_cons.mp h with h1 | h2
      · simp [h1]
      · exact List.mem_cons_of_mem _ (ih h2)

lemma head?_dropWhileRight {p : Char → Bool} {l : List Char}
    (h : dropWhileRight p l ≠ []) : (dropWhileRight p l).head? = l.head? := by
  cases l with
  | nil => simp [dropWhileRight]
  | cons c cs =>
    rw [dropWhileRight] at h ⊢
    by_cases hc : (dropWhileRight p cs = [] && p c) = true
    · rw [if_pos hc] at h
      exact absurd rfl h
    · rw [if_neg hc]
      simp

lemma getLast?_dropWhileRight {p : Char → Bool} {l : List Char} {c : Char}
    (h : (dropWhileRight p l).getLast? = some c) : p c = false := by
  induction l with
  | nil => simp [dropWhileRight] at h
  | cons a as ih =>
    rw [dropWhileRight] at h
    split at h
    · simp at h
    · next hcond =>
      rcases hr : dropWhileRight p as with _ | ⟨b, bs⟩
      · rw [hr] at h
        simp only [List.getLast?_singleton, Option.some.injEq] at h
        rw [hr] at hcond
        simp only [List.nil_eq, true_and] at hcond
        subst h
        simpa using hcond
      · rw [hr] at h
        rw [List.getLast?_cons_cons] at h
        exact ih (hr ▸ h)

lemma dropWhileRight_eq_self {p : Char → Bool} {l : List Char}
    (h : ∀ c, l.getLast? = some c → p c = false) : dropWhileRight p l = l := by
  induction l with
  | nil => rfl
  | cons a as ih =>
    rw [dropWhileRight]
    cases as with
    | nil =>
      have := h a (by simp)
      simp [dropWhileRight, this]
    | cons b bs =>
      have hrec : dropWhileRight p (b :: bs) = b :: bs := by
        apply ih
        intro c hc
        exact h c (by rwa [List.getLast?_cons_cons])
      rw [hrec]
      simp

lemma dropWhileRight_eq_nil_of_all {p : Char → Bool} {l : List Char}
    (h : ∀ c ∈ l, p c = true) : dropWhileRight p l = [] := by
  induction l with
  | nil => rfl
  | cons c cs ih =>
    rw [dropWhileRight, ih (fun x hx => h x (List.mem_cons_of_mem _ hx))]
    simp [h c (by simp)]

lemma dropWhileRight_append_all {p : Char → Bool} {l m : List Char}
    (hm : ∀ c ∈ m, p c = true) :
    dropWhileRight p (l ++ m) = dropWhileRight p l := by
  induction l with
  | nil =>
    simp only [List.nil_append]
    rw [show dropWhileRight p [] = [] from rfl]
    exact dropWhileRight_eq_nil_of_all hm
  | cons a as ih =>
    rw [List.cons_append, dropWhileRight, dropWhileRight, ih]

lemma dropWhile_head? {p : Char → Bool} {l : List Char} {c : Char}
    (h : (l.dropWhile p).head? = some c) : p c = false := by
  induction l with
  | nil => simp [List.dropWhile] at h
  | cons a as ih =>
    rw [List.dropWhile] at h
    split at h
    · exact ih h
    · next hp =>
      simp only [List.head?_cons, Option.some.injEq] at h
      subst h
      simpa using hp

lemma dropWhile_eq_self_of_head {p : Char → Bool} {l : List Char}
    (h : ∀ c, l.head? = some c → p c = false) : l.dropWhile p = l := by
  cases l with
  | nil => rfl
  | cons a as =>
    rw [List.dropWhile]
    simp [h a (by simp)]

lemma trimSpace_eq_self {l : List Char}
    (hh : ∀ c, l.head? = some c → goIsSpace c = false)
    (hl : ∀ c, l.getLast? = some c → goIsSpace c = false) : trimSpace l = l := by
  unfold trimSpace
  rw [dropWhile_eq_self_of_head hh]
  exact dropWhileRight_eq_self hl

lemma mem_trimSpace {l : List Char} {a : Char} (h : a ∈ trimSpace l) : a ∈ l := by
  unfold trimSpace at h
  exact (List.dropWhile_sublist goIsSpace).mem (mem_dropWhileRight h)

lemma head?_trimSpace_false {l : List Char} {c : Char}
    (h : (trimSpace l).head? = some c) : goIsSpace c = false := by
  unfold trimSpace at h
  have hne : dropWhileRight goIsSpace (l.dropWhile goIsSpace) ≠ [] := by
    intro hnil
    rw [hnil] at h
    simp at h
  rw [head?_dropWhileRight hne] at h
  exact dropWhile_head? h

lemma utf8Len_eq_length {l : List Char} (h : ∀ c ∈ l, goodChar c) :
    utf8Len l = l.length := by
  unfold utf8Len
  induction l with
  | nil => rfl
  | cons a as ih =>
    simp only [List.map_cons, List.sum_cons, List.length_cons]
    rw [utf8Size_eq_one_of_goodChar (h a (by simp)),
      ih (fun c hc => h c (List.mem_cons_of_mem _ hc))]
    omega

lemma takeBytes_eq_take {l : List Char} (h : ∀ c ∈ l, goodChar c) (n : Nat) :
    takeBytes n l = l.take n := by
  induction l generalizing n with
  | nil => simp [takeBytes]
  | cons a as ih =>
    rw [takeBytes]
    rw [utf8Size_eq_one_of_goodChar (h a (by simp))]
    cases n with
    | zero => simp
    | succ m =>
      simp only [List.take_succ_cons]
      have : (1 ≤ m + 1 && (m + 1 ≠ 0 : Bool)) = true := by simp
      rw [this]
      simp only [if_true, Nat.add_sub_cancel]
      rw [ih (fun c hc => h c (List.mem_cons_of_mem _ hc))]

/-! ### Supporting lemmas: reserved names and the placeholder -/

lemma reserved_length : ∀ x ∈ reservedNames, x.length ≤ 4 := by decide

lemma reserved_getLast : ∀ x ∈ reservedNames, x.getLast? ≠ some '_' := by decide

lemma head?_append_left {l m : List Char} (h : l ≠ []) :
    (l ++ m).head? = l.head? := by
  cases l with
  | nil => exact absurd rfl h
  | cons c cs => simp

lemma isDotOrSpace_false {c : Char} (h : isDotOrSpace c = false) :
    c ≠ '.' ∧ c ≠ ' ' := by
  simp only [isDotOrSpace, Bool.or_eq_false_iff, decide_eq_false_iff_not] at h
  exact h

lemma emptyPlaceholder_spec :
    emptyPlaceholder ≠ [] ∧
    (∀ c ∈ emptyPlaceholder, goodChar c) ∧
    emptyPlaceholder.length ≤ 255 ∧
    goToUpper emptyPlaceholder ∉ reservedNames ∧
    (∀ c, emptyPlaceholder.head? = some c → goIsSpace c = false) ∧
    (∀ c, emptyPlaceholder.getLast? = some c → goIsSpace c = false) ∧
    (emptyPlaceholder.getLast? = some '.' → emptyPlaceholder.length = 255) := by
  refine ⟨by decide, by decide, by decide, by decide, ?_, ?_, by decide⟩
  · intro c hc
    have : c = '_' := by
      have h : emptyPlaceholder.head? = some '_' := by decide
      rw [h] at hc
      exact (Option.some.injEq _ _ ▸ hc).symm
    subst this; decide
  · intro c hc
    have : c = '_' := by
      have h : emptyPlaceholder.getLast? = some '_' := by decide
      rw [h] at hc
      exact (Option.some.injEq _ _ ▸ hc).symm
    subst this; decide

/-- Main invariant of `applyWindowsRules`: on any input made of surviving
characters, the output is non-empty, made of surviving characters, at most 255
characters long, not a bare reserved name, starts with a non-space, ends with a
non-space, and ends with a period only when it was truncated to exactly 255
characters. -/
lemma applyWindowsRules_spec (l : List Char) (hl : ∀ c ∈ l, goodChar c) :
    applyWindowsRules l ≠ [] ∧
    (∀ c ∈ applyWindowsRules l, goodChar c) ∧
    (applyWindowsRules l).length ≤ 255 ∧
    goToUpper (applyWindowsRules l) ∉ reservedNames ∧
    (∀ c, (applyWindowsRules l).head? = some c → goIsSpace c = false) ∧
    (∀ c, (applyWindowsRules l).getLast? = some c → goIsSpace c = false) ∧
    ((applyWindowsRules l).getLast? = some '.' → (applyWindowsRules l).length = 255) := by
  have hplaceholder := emptyPlaceholder_spec
  unfold applyWindowsRules
  dsimp only
  by_cases h1 : trimSpace l = []
  · rw [if_pos h1]
    exact hplaceholder
  · rw [if_neg h1]
    by_cases h2 : dropWhileRight isDotOrSpace (trimSpace l) = []
    · rw [if_pos h2]
      exact hplaceholder
    · rw [if_neg h2]
      set n2 := dropWhileRight isDotOrSpace (trimSpace l) with hn2
      -- facts about n2
      have hmem2 : ∀ c ∈ n2, goodChar c := fun c hc =>
        hl c (mem_trimSpace (mem_dropWhileRight hc))
      have hhead2 : ∀ c, n2.head? = some c → goIsSpace c = false := by
        intro c hc
        rw [hn2, head?_dropWhileRight h2] at hc
        exact head?_trimSpace_false hc
      have hlast2 : ∀ c, n2.getLast? = some c → c ≠ '.' ∧ c ≠ ' ' := by
        intro c hc
        exact isDotOrSpace_false (getLast?_dropWhileRight hc)
      have hlast2s : ∀ c, n2.getLast? = some c → goIsSpace c = false := by
        intro c hc
        by_contra hsp
        have hsp' : goIsSpace c = true := by
          cases h : goIsSpace c with
          | false => exact absurd h hsp
          | true => rfl
        have hcm : c ∈ n2 := List.mem_of_mem_getLast? hc
        have := goodChar_eq_space_of_goIsSpace (hmem2 c hcm) hsp'
        exact (hlast2 c hc).2 this
      set n3 := if goToUpper n2 ∈ reservedNames then n2 ++ ['_'] else n2 with hn3
      have hmem3 : ∀ c ∈ n3, goodChar c := by
        rw [hn3]
        split
        · intro c hc
          rcases List.mem_append.mp hc with h | h
          · exact hmem2 c h
          · have : c = '_' := by simpa using h
            subst this; decide
        · exact hmem2
      have hn3ne : n3 ≠ [] := by
        rw [hn3]
        split
        · simp
        · exact h2
      have hhead3 : ∀ c, n3.head? = some c → goIsSpace c = false := by
        rw [hn3]
        split
        · intro c hc
          rw [head?_append_left h2] at hc
          exact hhead2 c hc
        · exact hhead2
      have hlast3 : ∀ c, n3.getLast? = some c → goIsSpace c = false ∧ c ≠ '.' := by
        rw [hn3]
        split
        · intro c hc
          rw [List.getLast?_concat] at hc
          have : c = '_' := by simpa using hc.symm
          subst this
          exact ⟨by decide, by decide⟩
        · intro c hc
          exact ⟨hlast2s c hc, (hlast2 c hc).1⟩
      have hres3 : goToUpper n3 ∉ reservedNames := by
        rw [hn3]
        split
        · next hr =>
          intro hmem
          have hup : goToUpper (n2 ++ ['_']) = goToUpper n2 ++ ['_'] := by
            simp [goToUpper, goToUpperChar]
          rw [hup] at hmem
          have := reserved_getLast _ hmem
          rw [List.getLast?_concat] at this
          exact this rfl
        · next hr => exact hr
      have hlen3 : utf8Len n3 = n3.length := utf8Len_eq_length hmem3
      by_cases h4 : maxNameLength < utf8Len n3
      · rw [if_pos h4]
        have hlen3' : 255 < n3.length := by
          rw [← hlen3]
          simpa [maxNameLength] using h4
        have htake : takeBytes (maxNameLength - 3) n3 = n3.take 252 := by
          simpa [maxNameLength] using takeBytes_eq_take hmem3 252
        rw [htake]
        have hlt : (n3.take 252).length = 252 := by
          rw [List.length_take]
          omega
        have htne : n3.take 252 ≠ [] := by
          intro hnil
          rw [hnil] at hlt
          simp at hlt
        have hlen4 : (n3.take 252 ++ ['.', '.', '.']).length = 255 := by
          simp [hlt]
        have f1 : n3.take 252 ++ ['.', '.', '.'] ≠ [] := by simp
        have f2 : ∀ c ∈ n3.take 252 ++ ['.', '.', '.'], goodChar c := by
          intro c hc
          rcases List.mem_append.mp hc with h | h
          · exact hmem3 c (List.take_subset _ _ h)
          · have : c = '.' := by simpa using h
            subst this; decide
        have f4 : goToUpper (n3.take 252 ++ ['.', '.', '.']) ∉ reservedNames := by
          intro hmem
          have := reserved_length _ hmem
          rw [goToUpper, List.length_map, hlen4] at this
          omega
        have f5 : ∀ c, (n3.take 252 ++ ['.', '.', '.']).head? = some c →
            goIsSpace c = false := by
          intro c hc
          rw [head?_append_left htne, List.head?_take] at hc
          norm_num at hc
          exact hhead3 c hc
        have flast : (n3.take 252 ++ ['.', '.', '.']).getLast? = some '.' := by
          rw [show ('.' :: '.' :: ['.'] : List Char) = ('.' :: '.' :: []) ++ ['.'] from rfl]
          rw [← List.append_assoc, List.getLast?_concat]
        have f6 : ∀ c, (n3.take 252 ++ ['.', '.', '.']).getLast? = some c →
            goIsSpace c = false := by
          intro c hc
          rw [flast] at hc
          have : c = '.' := by simpa using hc.symm
          subst this; decide
        rw [trimSpace_eq_self f5 f6, if_neg f1]
        exact ⟨f1, f2, by omega, f4, f5, f6, fun _ => hlen4⟩
      · rw [if_neg h4]
        have hlen : n3.length ≤ 255 := by
          rw [← hlen3]
          simpa [maxNameLength] using h4
        have f6 : ∀ c, n3.getLast? = some c → goIsSpace c = false :=
          fun c hc => (hlast3 c hc).1
        have f7 : n3.getLast? = some '.' → n3.length = 255 := by
          intro hdot
          exact absurd rfl (hlast3 '.' hdot).2
        rw [trimSpace_eq_self hhead3 f6, if_neg hn3ne]
        exact ⟨hn3ne, hmem3, hlen, hres3, hhead3, f6, f7⟩

/-- The seven output guarantees, lifted to the whole `sanitizeName` pipeline. -/
lemma sanitizeName_spec (l : List Char) :
    sanitizeName l ≠ [] ∧
    (∀ c ∈ sanitizeName l, goodChar c) ∧
    (sanitizeName l).length ≤ 255 ∧
    goToUpper (sanitizeName l) ∉ reservedNames ∧
    (∀ c, (sanitizeName l).head? = some c → goIsSpace c = false) ∧
    (∀ c, (sanitizeName l).getLast? = some c → goIsSpace c = false) ∧
    ((sanitizeName l).getLast? = some '.' → (sanitizeName l).length = 255) := by
  unfold sanitizeName
  by_cases h : l = []
  · rw [if_pos h]
    exact emptyPlaceholder_spec
  · rw [if_neg h]
    exact applyWindowsRules_spec _ (processed_good l)

/-! ### Fixed-point lemmas (for idempotence) -/

lemma removeControlChars_eq_self {l : List Char} (h : ∀ c ∈ l, goodChar c) :
    removeControlChars l = l := by
  unfold removeControlChars
  rw [List.filter_eq_self]
  intro c hc
  have := (h c hc).1
  simp only [Bool.not_eq_true', decide_eq_false_iff_not, Nat.not_le]
  omega

lemma processCharacters_eq_self {l : List Char} (h : ∀ c ∈ l, goodChar c) :
    processCharacters l = l := by
  unfold processCharacters
  have : l.map processChar = l.map id :=
    List.map_congr_left fun c hc => processChar_id (h c hc).2.2 (h c hc).2.1
  rw [this, List.map_id]

lemma applyWindowsRules_fixpoint {l : List Char} (h0 : l ≠ [])
    (h1 : trimSpace l = l) (h2 : dropWhileRight isDotOrSpace l = l)
    (h3 : goToUpper l ∉ reservedNames) (h4 : ¬ maxNameLength < utf8Len l) :
    applyWindowsRules l = l := by
  unfold applyWindowsRules
  dsimp only
  rw [h1, if_neg h0, h2, if_neg h0, if_neg h3, if_neg h4, h1, if_neg h0]

/-- Any `sanitizeName` output that does not end in a period is a fixed point of
`sanitizeName`. -/
lemma sanitizeName_fixpoint (l : List Char)
    (h : (sanitizeName l).getLast? ≠ some '.') :
    sanitizeName (sanitizeName l) = sanitizeName l := by
  obtain ⟨f1, f2, f3, f4, f5, f6, -⟩ := sanitizeName_spec l
  have hts : trimSpace (sanitizeName l) = sanitizeName l := trimSpace_eq_self f5 f6
  have hdwr : dropWhileRight isDotOrSpace (sanitizeName l) = sanitizeName l := by
    apply dropWhileRight_eq_self
    intro c hc
    have hcs : goIsSpace c = false := f6 c hc
    have hcd : c ≠ '.' := by
      intro heq
      exact h (heq ▸ hc)
    have hcsp : c ≠ ' ' := by
      intro heq
      rw [heq] at hcs
      exact absurd hcs (by decide)
    simp [isDotOrSpace, hcd, hcsp]
  have hlen : ¬ maxNameLength < utf8Len (sanitizeName l) := by
    rw [utf8Len_eq_length f2]
    simpa [maxNameLength] using f3
  conv_lhs => rw [sanitizeName]
  rw [if_neg f1, removeControlChars_eq_self f2, processCharacters_eq_self f2]
  exact applyWindowsRules_fixpoint f1 hts hdwr f4 hlen

/-! ### Concrete evaluations on the 300-character input

The 300-character test input is too large for kernel reduction of the whole
pipeline, so its image is computed by the structural lemmas instead. -/

lemma replicate_a_good {n : Nat} : ∀ c ∈ List.replicate n 'a', goodChar c := by
  intro c hc
  rw [List.mem_replicate] at hc
  rw [hc.2]; decide

lemma replicate_a_ne_nil : (List.replicate 300 'a' : List Char) ≠ [] := by
  apply List.ne_nil_of_length_pos
  rw [List.length_replicate]
  norm_num

lemma replicate_head_a {n : Nat} {c : Char}
    (h : (List.replicate n 'a').head? = some c) : c = 'a' :=
  (List.mem_replicate.mp (List.mem_of_mem_head? h)).2

lemma replicate_last_a {n : Nat} {c : Char}
    (h : (List.replicate n 'a').getLast? = some c) : c = 'a' :=
  (List.mem_replicate.mp (List.mem_of_mem_getLast? h)).2

lemma goToUpper_replicate_not_reserved {n : Nat} (hn : 4 < n) :
    goToUpper (List.replicate n 'a') ∉ reservedNames := by
  intro hmem
  have := reserved_length _ hmem
  rw [goToUpper, List.length_map, List.length_replicate] at this
  omega

lemma sanitize_a300 :
    sanitizeName (List.replicate 300 'a') =
      List.replicate 252 'a' ++ ['.', '.', '.'] := by
  rw [sanitizeName, if_neg replicate_a_ne_nil,
    removeControlChars_eq_self replicate_a_good,
    processCharacters_eq_self replicate_a_good]
  unfold applyWindowsRules
  dsimp only
  have hts : trimSpace (List.replicate 300 'a') = List.replicate 300 'a' := by
    apply trimSpace_eq_self
    · intro c hc; rw [replicate_head_a hc]; decide
    · intro c hc; rw [replicate_last_a hc]; decide
  have hdwr : dropWhileRight isDotOrSpace (List.replicate 300 'a') =
      List.replicate 300 'a' := by
    apply dropWhileRight_eq_self
    intro c hc; rw [replicate_last_a hc]; decide
  have hutf : utf8Len (List.replicate 300 'a') = 300 := by
    rw [utf8Len_eq_length replicate_a_good, List.length_replicate]
  rw [hts, if_neg replicate_a_ne_nil, hdwr, if_neg replicate_a_ne_nil,
    if_neg (goToUpper_replicate_not_reserved (by norm_num)), hutf,
    if_pos (show maxNameLength < 300 by norm_num [maxNameLength])]
  have htake : takeBytes (maxNameLength - 3) (List.replicate 300 'a') =
      List.replicate 252 'a' := by
    rw [takeBytes_eq_take replicate_a_good, List.take_replicate]
    norm_num [maxNameLength]
  rw [htake]
  have hne : (List.replicate 252 'a' ++ ['.', '.', '.'] : List Char) ≠ [] := by
    apply List.ne_nil_of_length_pos
    rw [List.length_append, List.length_replicate]
    norm_num
  have hlast : (List.replicate 252 'a' ++ ['.', '.', '.'] : List Char).getLast? =
      some '.' := by
    rw [show ('.' :: '.' :: ['.'] : List Char) = ('.' :: '.' :: []) ++ ['.'] from rfl]
    rw [← List.append_assoc, List.getLast?_concat]
  have hts2 : trimSpace (List.replicate 252 'a' ++ ['.', '.', '.']) =
      List.replicate 252 'a' ++ ['.', '.', '.'] := by
    apply trimSpace_eq_self
    · intro c hc
      have hne252 : (List.replicate 252 'a' : List Char) ≠ [] := by
        apply List.ne_nil_of_length_pos
        rw [List.length_replicate]
        norm_num
      rw [head?_append_left hne252] at hc
      rw [replicate_head_a hc]; decide
    · intro c hc
      rw [hlast] at hc
      cases hc
      decide
  rw [hts2, if_neg hne]

lemma rep252dots_good :
    ∀ c ∈ (List.replicate 252 'a' ++ ['.', '.', '.'] : List Char), goodChar c := by
  intro c hc
  rcases List.mem_append.mp hc with h | h
  · exact replicate_a_good c h
  · have : c = '.' := by simpa using h
    subst this; decide

lemma rep252dots_ne_nil :
    (List.replicate 252 'a' ++ ['.', '.', '.'] : List Char) ≠ [] := by
  apply List.ne_nil_of_length_pos
  rw [List.length_append, List.length_replicate]
  norm_num

lemma rep252_ne_nil : (List.replicate 252 'a' : List Char) ≠ [] := by
  apply List.ne_nil_of_length_pos
  rw [List.length_replicate]
  norm_num

lemma trimSpace_rep252dots :
    trimSpace (List.replicate 252 'a' ++ ['.', '.', '.']) =
      List.replicate 252 'a' ++ ['.', '.', '.'] := by
  apply trimSpace_eq_self
  · intro c hc
    rw [head?_append_left rep252_ne_nil] at hc
    rw [replicate_head_a hc]; decide
  · intro c hc
    rw [show ('.' :: '.' :: ['.'] : List Char) = ('.' :: '.' :: []) ++ ['.'] from rfl,
      ← List.append_assoc, List.getLast?_concat] at hc
    cases hc
    decide

/-- Re-sanitizing the truncated 300-character output strips the ellipsis. -/
lemma sanitize_252dots :
    sanitizeName (List.replicate 252 'a' ++ ['.', '.', '.']) =
      List.replicate 252 'a' := by
  rw [sanitizeName, if_neg rep252dots_ne_nil,
    removeControlChars_eq_self rep252dots_good,
    processCharacters_eq_self rep252dots_good]
  unfold applyWindowsRules
  dsimp only
  have hdots : ∀ c ∈ (['.', '.', '.'] : List Char), isDotOrSpace c = true := by
    intro c hc
    have : c = '.' := by simpa using hc
    subst this; decide
  have hdwr : dropWhileRight isDotOrSpace (List.replicate 252 'a' ++ ['.', '.', '.']) =
      List.replicate 252 'a' := by
    rw [dropWhileRight_append_all hdots]
    apply dropWhileRight_eq_self
    intro c hc; rw [replicate_last_a hc]; decide
  have hutf : utf8Len (List.replicate 252 'a') = 252 := by
    rw [utf8Len_eq_length replicate_a_good, List.length_replicate]
  have hts252 : trimSpace (List.replicate 252 'a') = List.replicate 252 'a' := by
    apply trimSpace_eq_self
    · intro c hc; rw [replicate_head_a hc]; decide
    · intro c hc; rw [replicate_last_a hc]; decide
  rw [trimSpace_rep252dots, if_neg rep252dots_ne_nil, hdwr, if_neg rep252_ne_nil,
    if_neg (goToUpper_replicate_not_reserved (by norm_num)), hutf,
    if_neg (show ¬ maxNameLength < 252 by norm_num [maxNameLength]),
    hts252, if_neg rep252_ne_nil]

/-! ### Claim C1 -/

/-- C1 (amended): for every input string, `SanitizeName` returns a non-empty
name of at most 255 characters in which every character is ASCII in the range
32–127 and not a forbidden character, whose uppercasing is not a bare reserved
name, which never ends in whitespace, and which ends in a period only when it
was truncated to exactly 255 characters. -/
theorem sanitizeName_output_invariants (s : String) :
    (SanitizeName s).data ≠ [] ∧
    (SanitizeName s).data.length ≤ 255 ∧
    (∀ c ∈ (SanitizeName s).data, 32 ≤ c.toNat ∧ c.toNat ≤ 127 ∧ c ∉ invalidChars) ∧
    goToUpper (SanitizeName s).data ∉ reservedNames ∧
    (∀ c, (SanitizeName s).data.getLast? = some c → goIsSpace c = false) ∧
    ((SanitizeName s).data.getLast? = some '.' → (SanitizeName s).data.length = 255) := by
  obtain ⟨f1, f2, f3, f4, -, f6, f7⟩ := sanitizeName_spec s.data
  exact ⟨f1, f3, fun c hc => f2 c hc, f4, f6, f7⟩

/-- C1 counterexample: the 300-`'a'` input sanitizes to a name with a trailing
period (the appended ellipsis), and the ASCII DEL character (code 127, not
printable) passes through the sanitizer untouched — both contradicting the
claim as stated. -/
theorem sanitizeName_illegal_output_cex :
    (SanitizeName ⟨List.replicate 300 'a'⟩).data.getLast? = some '.' ∧
    '\x7F' ∈ (SanitizeName "a\x7F").data := by
  constructor
  · rw [SanitizeName_data, data_mk, sanitize_a300]
    rw [show ('.' :: '.' :: ['.'] : List Char) = ('.' :: '.' :: []) ++ ['.'] from rfl,
      ← List.append_assoc, List.getLast?_concat]
  · decide

/-! ### Claim C2 -/

/-- C2 (amended): `SanitizeName` is idempotent on every input whose sanitized
form does not end in a period, i.e. whenever the length cap did not append the
ellipsis. -/
theorem sanitizeName_idempotent_unless_truncated (s : String)
    (h : (SanitizeName s).data.getLast? ≠ some '.') :
    SanitizeName (SanitizeName s) = SanitizeName s :=
  congrArg String.mk (sanitizeName_fixpoint s.data h)

/-- Witness for the amended C2 at a concrete input. -/
theorem sanitizeName_idempotent_unless_truncated_witness :
    (SanitizeName "folder").data.getLast? ≠ some '.' ∧
    SanitizeName (SanitizeName "folder") = SanitizeName "folder" :=
  ⟨by decide, sanitizeName_idempotent_unless_truncated "folder" (by decide)⟩

/-- C2 counterexample: the 300-`'a'` input is not a fixed point of a second
sanitization — the second pass strips the ellipsis appended by the first. -/
theorem sanitizeName_not_idempotent_cex :
    SanitizeName (SanitizeName ⟨List.replicate 300 'a'⟩) ≠
      SanitizeName ⟨List.replicate 300 'a'⟩ := by
  intro h
  have hdata := congrArg String.data h
  rw [SanitizeName_data, SanitizeName_data, data_mk,
    sanitize_a300, sanitize_252dots] at hdata
  have := congrArg List.length hdata
  rw [List.length_append, List.length_replicate] at this
  norm_num at this

/-! ### Claim C5 -/

/-- C5 (confirmed): the eight literal cases of the specification, exactly as
the test suite records them. -/
theorem sanitizeName_literal_cases :
    SanitizeName "" = "_empty_" ∧
    SanitizeName "   " = "_empty_" ∧
    SanitizeName "CON" = "CON_" ∧
    SanitizeName "con" = "con_" ∧
    SanitizeName "café" = "cafe" ∧
    SanitizeName "bad<chars>" = "bad_chars_" ∧
    SanitizeName "folder..." = "folder" ∧
    SanitizeName ⟨List.replicate 300 'a'⟩ = ⟨List.replicate 252 'a' ++ ['.', '.', '.']⟩ :=
  ⟨by decide, by decide, by decide, by decide, by decide, by decide, by decide,
    congrArg String.mk sanitize_a300⟩

/-! ### Data model (`internal/interfaces/interfaces.go`) -/

/-- Information about a folder to be processed (`interfaces.FolderInfo`).
`Depth` is a Go `int`; the walker only ever stores separator counts, so it is
modelled as `Nat`. -/
structure FolderInfo where
  path : String
  name : String
  depth : Nat
  parent : String
deriving DecidableEq, Repr

/-- Outcome of a rename operation (`interfaces.RenameResult`); the Go `error`
field is modelled as `Option String` (`none` = nil). -/
structure RenameResult where
  success : Bool
  oldPath : String
  newPath : String
  wasRenamed : Bool
  error : Option String
deriving DecidableEq, Repr

/-- A reified filesystem side effect: `stat` for the existence check performed
by `FileSystemProcessor.pathExists` (an `os.Stat` call), `rename` for
`os.Rename`.  The processor functions below return the exact sequence of
filesystem operations they perform, so "does not touch the filesystem" is the
statement that this trace is empty. -/
inductive FSOp where
  | stat (path : String)
  | rename (oldPath newPath : String)
deriving DecidableEq, Repr

/-! ### Path helpers (Go `path/filepath`, modelled for the clean,
separator-free names and clean absolute paths this program passes them) -/

/-- Models `filepath.Join(dir, name)` for a clean directory path and a
separator-free name (the only shapes this program joins). -/
def joinPath (dir name : String) : String :=
  dir ++ "/" ++ name

/-- Models `filepath.Ext`: the suffix beginning at the final dot in the final
path element, empty when there is no dot.  The scan stops at a path separator,
exactly like the Go original. -/
def extOf (s : String) : String :=
  go s.data.reverse []
where
  /-- Walks the string from its end; `seen` is the already-visited suffix. -/
  go : List Char → List Char → String
    | [], _ => ""
    | c :: rest, seen =>
      if c = '/' then ""
      else if c = '.' then ⟨c :: seen⟩
      else go rest (c :: seen)

/-- Models `filepath.Dir` for clean paths without trailing separators (the
shapes produced by `filepath.Join` and `filepath.Walk` in this program):
everything before the final separator, `"."` when there is none. -/
def dirOf (s : String) : String :=
  match s.data.reverse.dropWhile (fun c => !(c = '/')) with
  | [] => "."
  | _ :: rest => ⟨rest.reverse⟩

/-! ### RenameProcessor (`internal/processor/processor.go`)

The filesystem is abstract: `fs : String → Bool` tells whether a path exists
(`os.Stat` succeeding), and `renameErr : String → String → Option String` is
the outcome of `os.Rename` (`none` = success).  Every function also returns
the trace of filesystem operations it performed. -/

/-- Models `FileSystemProcessor.pathExists`. -/
def pathExists (fs : String → Bool) (path : String) : Bool :=
  fs path

/-- Models `NewFileSystemProcessor`: a non-positive retry budget falls back to
the default safety limit of 1000. -/
def newFileSystemProcessor (maxCollisionRetries : Int) : Nat :=
  if maxCollisionRetries ≤ 0 then 1000 else maxCollisionRetries.toNat

/-- The candidate name tried at a given counter: `_N` is inserted immediately
before the extension of the desired name (source: the two `fmt.Sprintf` calls
in `resolveNameCollision`). -/
def candidateName (nameWithoutExt ext : String) (counter : Nat) : String :=
  if ext ≠ "" then nameWithoutExt ++ "_" ++ toString counter ++ ext
  else nameWithoutExt ++ "_" ++ toString counter

/-- The numbered-probe loop of `resolveNameCollision`
(`for counter := 1; counter <= maxCollisionRetries; counter++`), with the
remaining iteration budget made explicit as `fuel`; when the budget is
exhausted the loop falls through to the `_conflict` fallback. -/
def resolveLoop (fs : String → Bool) (dir nameWithoutExt ext baseName : String) :
    Nat → Nat → String × List FSOp
  | _, 0 => (joinPath dir (baseName ++ "_conflict"), [])
  | counter, fuel + 1 =>
    let cPath := joinPath dir (candidateName nameWithoutExt ext counter)
    if pathExists fs cPath then
      let r := resolveLoop fs dir nameWithoutExt ext baseName (counter + 1) fuel
      (r.1, FSOp.stat cPath :: r.2)
    else (cPath, [FSOp.stat cPath])

/-- The desired name with its extension stripped
(`nameWithoutExt = baseName[:len(baseName)-len(ext)]` in the source; the
extension is a character-aligned suffix, so the byte slice is a character
slice). -/
def nameWithoutExtOf (baseName : String) : String :=
  if extOf baseName ≠ "" then
    ⟨baseName.data.take (baseName.data.length - (extOf baseName).data.length)⟩
  else baseName

/-- Models `FileSystemProcessor.resolveNameCollision`.  The Go function's
`error` return is `nil` on every path, so it is omitted here. -/
def resolveNameCollision (fs : String → Bool) (maxCollisionRetries : Nat)
    (targetPath baseName : String) : String × List FSOp :=
  if !(pathExists fs targetPath) then (targetPath, [FSOp.stat targetPath])
  else
    let dir := dirOf targetPath
    let r := resolveLoop fs dir (nameWithoutExtOf baseName) (extOf baseName)
      baseName 1 maxCollisionRetries
    (r.1, FSOp.stat targetPath :: r.2)

/-- The n-th collision-resolution candidate path for a desired name: `_n` is
inserted immediately before the trailing extension of the desired name. -/
def collisionCandidate (targetPath baseName : String) (n : Nat) : String :=
  joinPath (dirOf targetPath) (candidateName (nameWithoutExtOf baseName) (extOf baseName) n)

/-- Models `FileSystemProcessor.performRename`: run `os.Rename` and wrap a
failure with context. -/
def performRename (renameErr : String → String → Option String)
    (oldPath newPath : String) : Option String :=
  match renameErr oldPath newPath with
  | some e =>
    some ("failed to rename '" ++ oldPath ++ "' to '" ++ newPath ++ "': " ++ e)
  | none => none

/-- Models `FileSystemProcessor.ProcessRename`.  Returns the `RenameResult`,
the function's own `error` return (which the source sets to `nil` on every
path — each `return result, nil`), and the trace of filesystem operations.
The source's `if err != nil` branch after `resolveNameCollision` is dead code
because `resolveNameCollision` never returns a non-nil error. -/
def processRename (fs : String → Bool) (renameErr : String → String → Option String)
    (maxCollisionRetries : Nat) (folder : FolderInfo) (newName : String)
    (dryRun : Bool) : RenameResult × Option String × List FSOp :=
  if newName = folder.name then
    ({ success := true, oldPath := folder.path, newPath := folder.path,
       wasRenamed := false, error := none }, none, [])
  else
    let newPath := joinPath folder.parent newName
    let resolved := resolveNameCollision fs maxCollisionRetries newPath newName
    let finalPath := resolved.1
    if dryRun then
      ({ success := true, oldPath := folder.path, newPath := finalPath,
         wasRenamed := true, error := none }, none, resolved.2)
    else
      match performRename renameErr folder.path finalPath with
      | some e =>
        ({ success := false, oldPath := folder.path, newPath := finalPath,
           wasRenamed := true, error := some ("rename operation failed: " ++ e) },
         none, resolved.2 ++ [FSOp.rename folder.path finalPath])
      | none =>
        ({ success := true, oldPath := folder.path, newPath := finalPath,
           wasRenamed := true, error := none },
         none, resolved.2 ++ [FSOp.rename folder.path finalPath])

/-! ### SanitizationService (`internal/service/service.go`)

`SanitizeDirectory` walks, sorts, then loops over the folders calling the
processor.  The per-entry responses of the processor are abstracted as a list:
either the call itself returned a non-nil error, or it returned a result. -/

/-- One processor response inside the `SanitizeDirectory` loop. -/
inductive ProcResp where
  | callError (msg : String)
  | result (r : RenameResult)
deriving DecidableEq, Repr

/-- Running counters of `SanitizeDirectory` (`processedCount`, `renamedCount`,
`errorCount`, `skippedCount`). -/
structure Counts where
  processed : Nat
  renamed : Nat
  errored : Nat
  skipped : Nat
deriving DecidableEq, Repr

/-- One iteration of the `SanitizeDirectory` loop body, counting exactly as
the source does: `processedCount++` always; a call error or `result.Error`
increments `errorCount`; otherwise `WasRenamed && Success` increments
`renamedCount`; otherwise `!WasRenamed` increments `skippedCount` (the
remaining case increments nothing further). -/
def stepCounts (c : Counts) (resp : ProcResp) : Counts :=
  match resp with
  | .callError _ => { c with processed := c.processed + 1, errored := c.errored + 1 }
  | .result r =>
    if r.error.isSome then
      { c with processed := c.processed + 1, errored := c.errored + 1 }
    else if r.wasRenamed && r.success then
      { c with processed := c.processed + 1, renamed := c.renamed + 1 }
    else if !r.wasRenamed then
      { c with processed := c.processed + 1, skipped := c.skipped + 1 }
    else
      { c with processed := c.processed + 1 }

/-- The counters after the whole `SanitizeDirectory` loop. -/
def runCounts (resps : List ProcResp) : Counts :=
  resps.foldl stepCounts ⟨0, 0, 0, 0⟩

/-- Models the return value of `SanitizeDirectory` after a successful walk:
`if errorCount > 0 && renamedCount == 0` return an error, else nil. -/
def sanitizeDirectoryOutcome (resps : List ProcResp) : Option String :=
  let counts := runCounts resps
  if 0 < counts.errored ∧ counts.renamed = 0 then
    some ("sanitization completed with " ++ toString counts.errored ++
      " errors and no successful renames")
  else none

/-- An entry that errored: the processor call failed, or its result carries a
non-nil error. -/
def entryErrored : ProcResp → Bool
  | .callError _ => true
  | .result r => r.error.isSome

/-- An entry counted as successfully renamed by the loop. -/
def entryRenamed : ProcResp → Bool
  | .callError _ => false
  | .result r => !r.error.isSome && r.wasRenamed && r.success

/-! ### Claim C3 -/

lemma stepCounts_errored (c : Counts) (r : ProcResp) :
    (stepCounts c r).errored = c.errored + (if entryErrored r then 1 else 0) := by
  cases r with
  | callError m => simp [stepCounts, entryErrored]
  | result res =>
    simp only [stepCounts, entryErrored]
    by_cases h : res.error.isSome
    · simp [h]
    · simp only [h, if_false, Bool.false_eq_true]
      split
      · simp
      · split <;> simp

lemma stepCounts_renamed (c : Counts) (r : ProcResp) :
    (stepCounts c r).renamed = c.renamed + (if entryRenamed r then 1 else 0) := by
  cases r with
  | callError m => simp [stepCounts, entryRenamed]
  | result res =>
    simp only [stepCounts, entryRenamed]
    by_cases h : res.error.isSome
    · simp [h]
    · simp only [h, if_false, Bool.false_eq_true, Bool.not_false, Bool.true_and]
      split
      · next hws => simp [hws]
      · next hws =>
        split <;> simp [hws]

lemma foldl_stepCounts_errored (resps : List ProcResp) :
    ∀ c : Counts, (resps.foldl stepCounts c).errored =
      c.errored + resps.countP entryErrored := by
  induction resps with
  | nil => intro c; simp
  | cons r t ih =>
    intro c
    rw [List.foldl_cons, ih, stepCounts_errored, List.countP_cons]
    split <;> omega

lemma foldl_stepCounts_renamed (resps : List ProcResp) :
    ∀ c : Counts, (resps.foldl stepCounts c).renamed =
      c.renamed + resps.countP entryRenamed := by
  induction resps with
  | nil => intro c; simp
  | cons r t ih =>
    intro c
    rw [List.foldl_cons, ih, stepCounts_renamed, List.countP_cons]
    split <;> omega

lemma runCounts_errored (resps : List ProcResp) :
    (runCounts resps).errored = resps.countP entryErrored := by
  unfold runCounts
  rw [foldl_stepCounts_errored]
  simp

lemma runCounts_renamed (resps : List ProcResp) :
    (runCounts resps).renamed = resps.countP entryRenamed := by
  unfold runCounts
  rw [foldl_stepCounts_renamed]
  simp

/-- C3 (amended): after a successful walk, `SanitizeDirectory` reports an
overall failure exactly when at least one processed entry errored and no entry
was counted as successfully renamed; the original claim's "every processed
entry errored" is wrong (one error plus error-free skipped entries also yields
failure). -/
theorem sanitizeDirectory_overall_failure_iff (resps : List ProcResp) :
    (sanitizeDirectoryOutcome resps).isSome = true ↔
      ((∃ r ∈ resps, entryErrored r = true) ∧ ¬ ∃ r ∈ resps, entryRenamed r = true) := by
  unfold sanitizeDirectoryOutcome
  dsimp only
  split
  · next h =>
    simp only [Option.isSome_some, true_iff]
    obtain ⟨h1, h2⟩ := h
    rw [runCounts_errored] at h1
    rw [runCounts_renamed] at h2
    refine ⟨List.countP_pos_iff.mp h1, ?_⟩
    rintro ⟨r, hr, hpr⟩
    have := List.countP_eq_zero.mp h2 r hr
    exact this hpr
  · next h =>
    simp only [Option.isSome_none, Bool.false_eq_true, false_iff]
    rintro ⟨⟨r, hr, hpr⟩, h2⟩
    apply h
    constructor
    · rw [runCounts_errored]
      exact List.countP_pos_iff.mpr ⟨r, hr, hpr⟩
    · rw [runCounts_renamed]
      rw [List.countP_eq_zero]
      intro a ha hpa
      exact h2 ⟨a, ha, hpa⟩

/-- C3 counterexample: a run with one call error and one clean skipped entry
(no rename needed, no error) is reported as an overall failure by the code,
although not every processed entry errored — refuting the claim's
"if and only if every processed entry errored". -/
theorem sanitizeDirectory_overall_failure_cex :
    (sanitizeDirectoryOutcome
      [ProcResp.callError "processing failed",
       ProcResp.result ⟨true, "/t/clean", "/t/clean", false, none⟩]).isSome = true ∧
    ¬ (∀ r ∈ [ProcResp.callError "processing failed",
        ProcResp.result ⟨true, "/t/clean", "/t/clean", false, none⟩],
        entryErrored r = true) := by
  constructor
  · decide
  · decide

/-! ### Claim C6 -/

lemma resolveLoop_finds (fs : String → Bool) (dir nn ext bn : String) :
    ∀ fuel counter n, counter ≤ n → n < counter + fuel →
    fs (joinPath dir (candidateName nn ext n)) = false →
    (∀ m, counter ≤ m → m < n → fs (joinPath dir (candidateName nn ext m)) = true) →
    (resolveLoop fs dir nn ext bn counter fuel).1 =
      joinPath dir (candidateName nn ext n) := by
  intro fuel
  induction fuel with
  | zero =>
    intro counter n h1 h2 _ _
    omega
  | succ f ih =>
    intro counter n h1 h2 hfree hbusy
    rw [resolveLoop]
    by_cases hc : counter = n
    · subst hc
      rw [show pathExists fs (joinPath dir (candidateName nn ext counter)) = false
        from hfree]
      simp
    · have hlt : counter < n := lt_of_le_of_ne h1 hc
      rw [show pathExists fs (joinPath dir (candidateName nn ext counter)) = true
        from hbusy counter le_rfl hlt]
      simp only [if_true]
      exact ih (counter + 1) n hlt (by omega) hfree
        (fun m hm1 hm2 => hbusy m (by omega) hm2)

lemma resolveLoop_exhausted (fs : String → Bool) (dir nn ext bn : String) :
    ∀ fuel counter,
    (∀ m, counter ≤ m → m < counter + fuel →
      fs (joinPath dir (candidateName nn ext m)) = true) →
    (resolveLoop fs dir nn ext bn counter fuel).1 =
      joinPath dir (bn ++ "_conflict") := by
  intro fuel
  induction fuel with
  | zero =>
    intro counter _
    rw [resolveLoop]
  | succ f ih =>
    intro counter hbusy
    rw [resolveLoop]
    rw [show pathExists fs (joinPath dir (candidateName nn ext counter)) = true
      from hbusy counter le_rfl (by omega)]
    simp only [if_true]
    exact ih (counter + 1) (fun m hm1 hm2 => hbusy m (by omega) (by omega))

/-- C6 (confirmed): collision resolution.  If the target is free it is used
unchanged (after a single stat).  Otherwise candidates `_1`, `_2`, … are
formed by inserting the counter immediately before the trailing extension of
the desired name, probed in increasing order; the least free candidate (within
the 1000-attempt budget) is returned, and when all 1000 are occupied the fixed
`<name>_conflict` fallback is returned without further numeric search. -/
theorem resolveNameCollision_spec (fs : String → Bool) (targetPath baseName : String) :
    (fs targetPath = false →
      resolveNameCollision fs 1000 targetPath baseName =
        (targetPath, [FSOp.stat targetPath])) ∧
    (∀ n, fs targetPath = true → 1 ≤ n → n ≤ 1000 →
      fs (collisionCandidate targetPath baseName n) = false →
      (∀ m, 1 ≤ m → m < n → fs (collisionCandidate targetPath baseName m) = true) →
      (resolveNameCollision fs 1000 targetPath baseName).1 =
        collisionCandidate targetPath baseName n) ∧
    (fs targetPath = true →
      (∀ m, 1 ≤ m → m ≤ 1000 → fs (collisionCandidate targetPath baseName m) = true) →
      (resolveNameCollision fs 1000 targetPath baseName).1 =
        joinPath (dirOf targetPath) (baseName ++ "_conflict")) := by
  refine ⟨?_, ?_, ?_⟩
  · intro h
    unfold resolveNameCollision
    rw [show pathExists fs targetPath = false from h]
    simp
  · intro n htgt h1 h2 hfree hbusy
    unfold resolveNameCollision
    rw [show pathExists fs targetPath = true from htgt]
    dsimp only
    simp only [Bool.not_true, Bool.false_eq_true, if_false]
    exact resolveLoop_finds fs (dirOf targetPath) (nameWithoutExtOf baseName)
      (extOf baseName) baseName 1000 1 n h1 (by omega) hfree hbusy
  · intro htgt hbusy
    unfold resolveNameCollision
    rw [show pathExists fs targetPath = true from htgt]
    dsimp only
    simp only [Bool.not_true, Bool.false_eq_true, if_false]
    exact resolveLoop_exhausted fs (dirOf targetPath) (nameWithoutExtOf baseName)
      (extOf baseName) baseName 1000 1 (fun m hm1 hm2 => hbusy m hm1 (by omega))

/-- Witness for C6 at the spec's own example: desired name `report.old`
colliding resolves to `report_1.old` (not `report.old_1`). -/
theorem resolveNameCollision_spec_witness :
    (fun p => p == "/data/report.old") "/data/report.old" = true ∧
    (resolveNameCollision (fun p => p == "/data/report.old") 1000
      "/data/report.old" "report.old").1 = "/data/report_1.old" := by
  refine ⟨by decide, ?_⟩
  have h := (resolveNameCollision_spec (fun p => p == "/data/report.old")
    "/data/report.old" "report.old").2.1 1 (by decide) (by omega) (by omega)
    (by decide) (fun m hm1 hm2 => absurd (Nat.lt_of_le_of_lt hm1 hm2) (by omega))
  rw [h]
  decide

/-! ### Claim C7 -/

/-- C7 (confirmed): when the desired name equals the entry's current name,
`ProcessRename` returns immediately with `wasRenamed = false`,
`success = true`, `newPath` unchanged, a nil function error, and an empty
filesystem trace — no stat, no rename. -/
theorem processRename_noop (fs : String → Bool)
    (renameErr : String → String → Option String) (mr : Nat)
    (folder : FolderInfo) (newName : String) (dryRun : Bool)
    (h : newName = folder.name) :
    processRename fs renameErr mr folder newName dryRun =
      ({ success := true, oldPath := folder.path, newPath := folder.path,
         wasRenamed := false, error := none }, none, []) := by
  unfold processRename
  rw [if_pos h]

/-- Witness for C7 at a concrete already-compliant folder. -/
theorem processRename_noop_witness :
    "Docs" = (FolderInfo.mk "/r/Docs" "Docs" 1 "/r").name ∧
    processRename (fun _ => true) (fun _ _ => none) 1000
        (FolderInfo.mk "/r/Docs" "Docs" 1 "/r") "Docs" false =
      ({ success := true, oldPath := "/r/Docs", newPath := "/r/Docs",
         wasRenamed := false, error := none }, none, []) :=
  ⟨rfl, processRename_noop (fun _ => true) (fun _ _ => none) 1000
    (FolderInfo.mk "/r/Docs" "Docs" 1 "/r") "Docs" false rfl⟩

/-! ### Claim C8 -/

/-- C8 (confirmed): when the underlying rename fails outside dry-run mode, the
failure is captured inside the returned `RenameResult` (`success = false`,
populated error field) while the function's own error return stays nil, so the
caller keeps processing. -/
theorem processRename_rename_failure (fs : String → Bool)
    (renameErr : String → String → Option String) (mr : Nat)
    (folder : FolderInfo) (newName : String) (e : String)
    (hne : ¬ newName = folder.name)
    (herr : renameErr folder.path
      (resolveNameCollision fs mr (joinPath folder.parent newName) newName).1 =
        some e) :
    (processRename fs renameErr mr folder newName false).1.success = false ∧
    (processRename fs renameErr mr folder newName false).1.error.isSome = true ∧
    (processRename fs renameErr mr folder newName false).2.1 = none := by
  unfold processRename
  rw [if_neg hne]
  dsimp only
  rw [performRename, herr]
  simp

/-- Witness for C8 at a concrete failing rename. -/
theorem processRename_rename_failure_witness :
    ¬ "y" = (FolderInfo.mk "/t/x" "x" 1 "/t").name ∧
    (fun _ _ => some "permission denied" : String → String → Option String)
        (FolderInfo.mk "/t/x" "x" 1 "/t").path
        (resolveNameCollision (fun _ => false) 1000
          (joinPath (FolderInfo.mk "/t/x" "x" 1 "/t").parent "y") "y").1 =
      some "permission denied" ∧
    (processRename (fun _ => false) (fun _ _ => some "permission denied") 1000
        (FolderInfo.mk "/t/x" "x" 1 "/t") "y" false).1.success = false ∧
    (processRename (fun _ => false) (fun _ _ => some "permission denied") 1000
        (FolderInfo.mk "/t/x" "x" 1 "/t") "y" false).1.error.isSome = true ∧
    (processRename (fun _ => false) (fun _ _ => some "permission denied") 1000
        (FolderInfo.mk "/t/x" "x" 1 "/t") "y" false).2.1 = none :=
  ⟨by decide, rfl,
    processRename_rename_failure (fun _ => false) (fun _ _ => some "permission denied")
      1000 (FolderInfo.mk "/t/x" "x" 1 "/t") "y" "permission denied"
      (by decide) rfl⟩

/-! ### Claim C10 -/

/-- C10 (confirmed): every `RenameResult` returned by `ProcessRename`
satisfies `Success = true` exactly when `Error = nil`, on every return path
(no-op, dry-run, rename failure, rename success; the collision-resolution
error path is dead code because `resolveNameCollision` always returns a nil
error). -/
theorem processRename_success_iff_no_error (fs : String → Bool)
    (renameErr : String → String → Option String) (mr : Nat)
    (folder : FolderInfo) (newName : String) (dryRun : Bool) :
    (processRename fs renameErr mr folder newName dryRun).1.success = true ↔
      (processRename fs renameErr mr folder newName dryRun).1.error = none := by
  unfold processRename
  split
  · simp
  · dsimp only
    split
    · simp
    · split <;> simp

/-! ### TreeCollector (`internal/walker/walker.go`)

The walker's callback (`processWalkPath`) is modelled as a pure function of
the callback arguments plus the two accumulators it mutates (`folders`,
`collectErrors`); its `error` return distinguishes `nil` (continue) from
`filepath.SkipDir`. -/

/-- The error value passed to a `filepath.Walk` callback, with the one
property the walker inspects (`os.IsPermission`). -/
structure GoError where
  isPermission : Bool
  msg : String
deriving DecidableEq, Repr

/-- The slice of `os.FileInfo` the walker consults (`info.IsDir()`); only
meaningful when the callback error is nil, exactly as in `filepath.Walk`. -/
structure FileInfo where
  isDir : Bool
deriving DecidableEq, Repr

/-- The walker callback's return value: `nil` (keep walking) or
`filepath.SkipDir`. -/
inductive WalkSignal where
  | cont
  | skipDir
deriving DecidableEq, Repr

/-- Models `filepath.Rel(root, path)` at the walker's call sites: `path`
equal to the root gives `"."`, a path lexically below the root gives the
suffix after `root + "/"`; any other shape (never produced by `filepath.Walk`
under `root`) is the Go error case, modelled as `none`. -/
def relPath (root path : String) : Option String :=
  if path = root then some "."
  else if path.data.take (root.data.length + 1) = root.data ++ ['/'] then
    some ⟨path.data.drop (root.data.length + 1)⟩
  else none

/-- Number of path separators in a string (the loop over
`filepath.Separator` in `calculateDepth`). -/
def sepCount (s : String) : Nat :=
  s.data.count '/'

/-- Models `FileSystemWalker.calculateDepth`: 0 on a `filepath.Rel` error, 0
for `"."`, otherwise separator count plus one. -/
def calculateDepth (path root : String) : Nat :=
  match relPath root path with
  | none => 0
  | some rel => if rel = "." then 0 else sepCount rel + 1

/-- Models `filepath.Base` for the clean paths this walker produces: the part
after the final separator. -/
def baseOf (path : String) : String :=
  ⟨(path.data.reverse.takeWhile (fun c => !(c = '/'))).reverse⟩

/-- Models `FileSystemWalker.extractFolderInfoFromPath`. -/
def extractFolderInfoFromPath (path rootPath : String) : FolderInfo :=
  { path := path, name := baseOf path,
    depth := calculateDepth path rootPath, parent := dirOf path }

/-- Models `FileSystemWalker.processWalkPath`: one `filepath.Walk` callback
invocation, returning the updated `folders` and `collectErrors` accumulators
and the callback's return value. -/
def processWalkPath (skipInaccessible : Bool) (maxDepth : Nat)
    (path : String) (info : FileInfo) (err : Option GoError) (rootPath : String)
    (folders : List FolderInfo) (collectErrors : List String) :
    List FolderInfo × List String × WalkSignal :=
  match err with
  | some e =>
    if skipInaccessible && e.isPermission then
      (folders, collectErrors ++ ["permission denied: " ++ path], .skipDir)
    else if path ≠ rootPath then
      (folders ++ [extractFolderInfoFromPath path rootPath],
       collectErrors ++ ["error accessing " ++ path ++ ": " ++ e.msg], .skipDir)
    else (folders, collectErrors, .skipDir)
  | none =>
    if info.isDir = true ∧ path ≠ rootPath then
      let depth := calculateDepth path rootPath
      if 0 < maxDepth ∧ maxDepth < depth then (folders, collectErrors, .skipDir)
      else
        let folderInfo : FolderInfo :=
          { path := path, name := baseOf path, depth := depth, parent := dirOf path }
        (folders ++ [folderInfo], collectErrors, .cont)
    else (folders, collectErrors, .cont)

/-- The comparator of `sortFoldersByDepth` as a total preorder: `a` may come
before `b` when `a` is deeper, or at equal depth when `a`'s path is not
larger.  This is the negation-converse of the `sort.Slice` less-function
(deeper first, ties by path ascending). -/
def folderLe (a b : FolderInfo) : Bool :=
  b.depth < a.depth || (a.depth = b.depth && a.path ≤ b.path)

/-- Models `FileSystemWalker.sortFoldersByDepth` (`sort.Slice` with the
deeper-first, path-ascending comparator): a sort of the list by the
comparator's total preorder. -/
def sortFoldersByDepth (folders : List FolderInfo) : List FolderInfo :=
  folders.mergeSort folderLe

/-- A path `b` strictly below `a` in the tree. -/
def strictAncestor (a b : String) : Prop :=
  ∃ t : String, b = a ++ "/" ++ t

/-! ### Claim C9 -/

/-- C9 (amended): with skip-inaccessible enabled, a permission-denied
directory has its failure recorded and its subtree skipped, but the directory
itself is NOT added to the result list; directories failing with any other
access error are added to the result list (with their subtree skipped). -/
theorem processWalkPath_inaccessible (maxDepth : Nat) (path rootPath : String)
    (info : FileInfo) (e : GoError) (folders : List FolderInfo)
    (collectErrors : List String) :
    (e.isPermission = true →
      processWalkPath true maxDepth path info (some e) rootPath folders collectErrors =
        (folders, collectErrors ++ ["permission denied: " ++ path],
         WalkSignal.skipDir)) ∧
    (e.isPermission = false → path ≠ rootPath →
      processWalkPath true maxDepth path info (some e) rootPath folders collectErrors =
        (folders ++ [extractFolderInfoFromPath path rootPath],
         collectErrors ++ ["error accessing " ++ path ++ ": " ++ e.msg],
         WalkSignal.skipDir)) := by
  constructor
  · intro hperm
    simp only [processWalkPath]
    rw [show (true && e.isPermission) = true by rw [hperm]; rfl]
    simp
  · intro hperm hpath
    simp only [processWalkPath]
    rw [show (true && e.isPermission) = false by rw [hperm]; rfl]
    simp only [Bool.false_eq_true, if_false]
    rw [if_pos hpath]

/-- Witness for the amended C9 at concrete inputs (one permission error, one
other access error). -/
theorem processWalkPath_inaccessible_witness :
    ((GoError.mk true "permission denied").isPermission = true ∧
      processWalkPath true 0 "/r/locked" ⟨true⟩ (some ⟨true, "permission denied"⟩)
          "/r" [] [] =
        ([], ["permission denied: /r/locked"], WalkSignal.skipDir)) ∧
    ((GoError.mk false "io error").isPermission = false ∧ "/r/bad" ≠ "/r" ∧
      processWalkPath true 0 "/r/bad" ⟨true⟩ (some ⟨false, "io error"⟩)
          "/r" [] [] =
        ([extractFolderInfoFromPath "/r/bad" "/r"],
         ["error accessing /r/bad: io error"], WalkSignal.skipDir)) :=
  ⟨⟨rfl, (processWalkPath_inaccessible 0 "/r/locked" "/r" ⟨true⟩
      ⟨true, "permission denied"⟩ [] []).1 rfl⟩,
   ⟨rfl, by decide, (processWalkPath_inaccessible 0 "/r/bad" "/r" ⟨true⟩
      ⟨false, "io error"⟩ [] []).2 rfl (by decide)⟩⟩

/-- C9 counterexample: with skip-inaccessible enabled and a permission-denied
directory, the result-folder accumulator is left unchanged (the inaccessible
directory is NOT added to the result list), refuting the claim's "still
includes the inaccessible directory itself in the returned result list". -/
theorem processWalkPath_permission_not_added_cex :
    processWalkPath true 0 "/r/locked" ⟨true⟩ (some ⟨true, "permission denied"⟩)
        "/r" [] [] =
      ([], ["permission denied: /r/locked"], WalkSignal.skipDir) ∧
    ¬ ∃ f ∈ (processWalkPath true 0 "/r/locked" ⟨true⟩
        (some ⟨true, "permission denied"⟩) "/r" [] []).1,
        f.path = "/r/locked" := by
  constructor
  · decide
  · decide

/-! ### Claim C4 -/

lemma folderLe_trans (a b c : FolderInfo)
    (h1 : folderLe a b = true) (h2 : folderLe b c = true) : folderLe a c = true := by
  unfold folderLe at h1 h2 ⊢
  simp only [Bool.or_eq_true, Bool.and_eq_true, decide_eq_true_eq] at h1 h2 ⊢
  rcases h1 with h1 | ⟨h1d, h1p⟩ <;> rcases h2 with h2 | ⟨h2d, h2p⟩
  · exact Or.inl (by omega)
  · exact Or.inl (by omega)
  · exact Or.inl (by omega)
  · exact Or.inr ⟨by omega, le_trans h1p h2p⟩

lemma folderLe_total (a b : FolderInfo) : (folderLe a b || folderLe b a) = true := by
  unfold folderLe
  simp only [Bool.or_eq_true, Bool.and_eq_true, decide_eq_true_eq]
  rcases Nat.lt_trichotomy a.depth b.depth with h | h | h
  · exact Or.inr (Or.inl h)
  · rcases le_total a.path b.path with hp | hp
    · exact Or.inl (Or.inr ⟨h, hp⟩)
    · exact Or.inr (Or.inr ⟨h.symm, hp⟩)
  · exact Or.inl (Or.inl h)

lemma strictAncestor_path_ne {a b : String} (h : strictAncestor a b) : a ≠ b := by
  obtain ⟨t, ht⟩ := h
  intro heq
  have hdata : b.data = (a.data ++ ['/']) ++ t.data := by
    rw [ht]
    rfl
  have hlen := congrArg List.length hdata
  rw [heq] at hlen
  simp [List.length_append] at hlen

lemma depth_lt_of_strictAncestor {root : String} {a b : FolderInfo}
    (ha : ∃ rel : String, a.path = root ++ "/" ++ rel ∧ a.depth = sepCount rel + 1)
    (hb : ∃ rel : String, b.path = root ++ "/" ++ rel ∧ b.depth = sepCount rel + 1)
    (hanc : strictAncestor a.path b.path) : a.depth < b.depth := by
  obtain ⟨ra, hpa, hda⟩ := ha
  obtain ⟨rb, hpb, hdb⟩ := hb
  obtain ⟨t, ht⟩ := hanc
  have hdata : (root.data ++ ['/']) ++ rb.data =
      (((root.data ++ ['/']) ++ ra.data) ++ ['/']) ++ t.data := by
    have e1 : b.path.data = (root.data ++ ['/']) ++ rb.data := by rw [hpb]; rfl
    have e2 : b.path.data = (((root.data ++ ['/']) ++ ra.data) ++ ['/']) ++ t.data := by
      rw [ht, hpa]
      rfl
    rw [← e1, e2]
  have hlist : rb.data = (ra.data ++ ['/']) ++ t.data := by
    have hcancel : (root.data ++ ['/']) ++ rb.data =
        (root.data ++ ['/']) ++ ((ra.data ++ ['/']) ++ t.data) := by
      rw [hdata]
      simp [List.append_assoc]
    exact List.append_cancel_left hcancel
  have hcount : rb.data.count '/' = ra.data.count '/' + 1 + t.data.count '/' := by
    rw [hlist, List.count_append, List.count_append]
    simp [List.count_singleton]
  unfold sepCount at hda hdb
  omega

/-- C4 (confirmed): the sorted list produced by the walker is ordered by depth
descending with ties broken by path ascending (pairwise the comparator's total
preorder holds along the list), and whenever one collected entry's path is a
strict ancestor of another's (entries carrying the depths the collector
computes: separator count of the root-relative path plus one), the ancestor
has strictly smaller depth and is processed strictly later. -/
theorem sortFoldersByDepth_bottomUp (root : String) (l : List FolderInfo)
    (hdepth : ∀ f ∈ l, ∃ rel : String, f.path = root ++ "/" ++ rel ∧
      f.depth = sepCount rel + 1) :
    List.Pairwise (fun a b => folderLe a b = true) (sortFoldersByDepth l) ∧
    ∀ i j : Fin (sortFoldersByDepth l).length,
      strictAncestor ((sortFoldersByDepth l).get i).path
        ((sortFoldersByDepth l).get j).path →
      ((sortFoldersByDepth l).get i).depth <
        ((sortFoldersByDepth l).get j).depth ∧ (j : Nat) < (i : Nat) := by
  have hsorted : List.Pairwise (fun a b => folderLe a b = true) (sortFoldersByDepth l) :=
    List.sorted_mergeSort folderLe_trans folderLe_total l
  refine ⟨hsorted, ?_⟩
  intro i j hanc
  have hmi : (sortFoldersByDepth l).get i ∈ l :=
    (List.mergeSort_perm l folderLe).subset (List.get_mem _ _ _)
  have hmj : (sortFoldersByDepth l).get j ∈ l :=
    (List.mergeSort_perm l folderLe).subset (List.get_mem _ _ _)
  have hd := depth_lt_of_strictAncestor (hdepth _ hmi) (hdepth _ hmj) hanc
  refine ⟨hd, ?_⟩
  rcases Nat.lt_trichotomy (j : Nat) (i : Nat) with hij | hij | hij
  · exact hij
  · exfalso
    have : i = j := Fin.ext hij.symm
    subst this
    exact strictAncestor_path_ne hanc rfl
  · exfalso
    have hle := (List.pairwise_iff_get.mp hsorted) i j hij
    unfold folderLe at hle
    simp only [Bool.or_eq_true, Bool.and_eq_true, decide_eq_true_eq] at hle
    rcases hle with hle | ⟨hle, -⟩ <;> omega

/-- Witness for C4 on a concrete two-entry collection. -/
theorem sortFoldersByDepth_bottomUp_witness :
    (∀ f ∈ [FolderInfo.mk "/r/a" "a" 1 "/r", FolderInfo.mk "/r/a/b" "b" 2 "/r/a"],
      ∃ rel : String, f.path = "/r" ++ "/" ++ rel ∧ f.depth = sepCount rel + 1) ∧
    (List.Pairwise (fun a b => folderLe a b = true)
      (sortFoldersByDepth
        [FolderInfo.mk "/r/a" "a" 1 "/r", FolderInfo.mk "/r/a/b" "b" 2 "/r/a"]) ∧
    ∀ i j : Fin (sortFoldersByDepth
        [FolderInfo.mk "/r/a" "a" 1 "/r", FolderInfo.mk "/r/a/b" "b" 2 "/r/a"]).length,
      strictAncestor
        ((sortFoldersByDepth
          [FolderInfo.mk "/r/a" "a" 1 "/r", FolderInfo.mk "/r/a/b" "b" 2 "/r/a"]).get i).path
        ((sortFoldersByDepth
          [FolderInfo.mk "/r/a" "a" 1 "/r", FolderInfo.mk "/r/a/b" "b" 2 "/r/a"]).get j).path →
      ((sortFoldersByDepth
          [FolderInfo.mk "/r/a" "a" 1 "/r", FolderInfo.mk "/r/a/b" "b" 2 "/r/a"]).get i).depth <
        ((sortFoldersByDepth
          [FolderInfo.mk "/r/a" "a" 1 "/r", FolderInfo.mk "/r/a/b" "b" 2 "/r/a"]).get j).depth ∧
        (j : Nat) < (i : Nat)) := by
  have hd : ∀ f ∈ [FolderInfo.mk "/r/a" "a" 1 "/r", FolderInfo.mk "/r/a/b" "b" 2 "/r/a"],
      ∃ rel : String, f.path = "/r" ++ "/" ++ rel ∧ f.depth = sepCount rel + 1 := by
    intro f hf
    rcases List.mem_cons.mp hf with h | hf
    · exact ⟨"a", by rw [h]; decide, by rw [h]; decide⟩
    · rcases List.mem_cons.mp hf with h | hf
      · exact ⟨"a/b", by rw [h]; decide, by rw [h]; decide⟩
      · simp at hf
  exact ⟨hd, sortFoldersByDepth_bottomUp "/r"
    [FolderInfo.mk "/r/a" "a" 1 "/r", FolderInfo.mk "/r/a/b" "b" 2 "/r/a"] hd⟩
